import Mathlib

/-!
Verification of the Chebyshev Type II filter-design pipeline declared in
`src/iir/ChebyshevII.h`.

The header in `src/` contains the declarations of the analog prototypes
(`AnalogLowPass`, `AnalogLowShelf`), the response-specific setup bases, and the
user-facing filter templates together with the full bodies of their `setup`
wrappers (including the `reqOrder > FilterOrder` capacity check).  The bodies of
`AnalogLowPass::design`, `AnalogLowShelf::design`, the frequency/bilinear
transforms and the cascade builder live in other translation units of the
repository that are not part of `src/`; those parts are modelled here from the
specification (each such definition carries a doc comment starting with
`Modelled from the spec:`).

C++ `double` arithmetic is modelled over the real numbers `ℝ` (poles and zeros
over `ℂ`); the C++ `int`/`unsigned int` arithmetic of the order check is
modelled exactly, with the usual-arithmetic-conversion `int → unsigned`
performed modulo `2 ^ 32`.
-/

namespace IirChebII

/-- Modelled from the spec: §4.1 step 1 of `AnalogLowPass::design` (body in
`ChebyshevII.cpp`, not in `src/`) — the ripple factor
`ε = 1 / sqrt(10^(stopBandDb/10) − 1)`. -/
noncomputable def rippleEps (stopBandDb : ℝ) : ℝ :=
  1 / Real.sqrt ((10 : ℝ) ^ (stopBandDb / 10) - 1)

/-- Modelled from the spec: §4.1 step 2 — the hyperbolic parameter
`v0 = (1/N)·asinh(1/ε)`. -/
noncomputable def chebyV0 (numPoles : ℕ) (stopBandDb : ℝ) : ℝ :=
  Real.arsinh (1 / rippleEps stopBandDb) / numPoles

/-- Modelled from the spec: §4.1 step 2 — the Chebyshev angle
`θ_k = (2k−1)·π/(2N)`. -/
noncomputable def chebyAngle (numPoles k : ℕ) : ℝ :=
  (2 * (k : ℝ) - 1) * Real.pi / (2 * numPoles)

/-- Modelled from the spec: §4.1 step 2 — the k-th order-N Type-I Chebyshev
pole, by the standard hyperbolic construction
`−sinh(v0)·sin(θ_k) + i·cosh(v0)·cos(θ_k)`. -/
noncomputable def typeIPole (numPoles : ℕ) (stopBandDb : ℝ) (k : ℕ) : ℂ :=
  ⟨-(Real.sinh (chebyV0 numPoles stopBandDb) * Real.sin (chebyAngle numPoles k)),
    Real.cosh (chebyV0 numPoles stopBandDb) * Real.cos (chebyAngle numPoles k)⟩

/-- Modelled from the spec: §4.1 step 3 — the Type-II pole is the reciprocal of
the Type-I pole. -/
noncomputable def typeIIPole (numPoles : ℕ) (stopBandDb : ℝ) (k : ℕ) : ℂ :=
  (typeIPole numPoles stopBandDb k)⁻¹

/-- Modelled from the spec: §4.1 step 4 — the k-th Type-II zero
`1/(j·cos(θ_k))`. -/
noncomputable def typeIIZero (numPoles k : ℕ) : ℂ :=
  (Complex.I * (Real.cos (chebyAngle numPoles k) : ℂ))⁻¹

/-- Modelled from the spec: §3 — a pole/zero layout entry as stored by the
(external) pole/zero container: either a conjugate pair (the entry holds a pole
and a zero, each standing for itself and its complex conjugate, §3 conjugate
invariant) or a single real pole with an optional single real zero (`none`
standing for a zero at infinity, §4.1 step 5). -/
inductive PZEntry
  | conjPair (pole zero : ℂ)
  | single (pole : ℂ) (zero : Option ℂ)

/-- Modelled from the spec: §4.1 — the body of `AnalogLowPass::design`
(`ChebyshevII.cpp`, not in `src/`): one conjugate pole/zero pair for each
`k = 1..⌊N/2⌋`, and for odd `N` one leftover real pole (`k = (N+1)/2`, where
the Chebyshev angle is `π/2`) with no paired zero. -/
noncomputable def AnalogLowPass.design (numPoles : ℕ) (stopBandDb : ℝ) : List PZEntry :=
  ((List.range (numPoles / 2)).map fun j =>
    PZEntry.conjPair (typeIIPole numPoles stopBandDb (j + 1)) (typeIIZero numPoles (j + 1)))
  ++ (if numPoles % 2 = 1 then
        [PZEntry.single (typeIIPole numPoles stopBandDb ((numPoles + 1) / 2)) none]
      else [])

/-- Modelled from the spec: §4.2 — the gain-dependent root-locus radius factor,
a continuous positive function of the amplitude ratio `10^(gainDb/20)` that is
`1` at `gainDb = 0` (the exact closed form is left open by the spec; any
positive radius factor with these properties realises the stated contract). -/
noncomputable def shelfScale (numPoles : ℕ) (gainDb : ℝ) : ℝ :=
  ((10 : ℝ) ^ (gainDb / 20)) ^ ((1 : ℝ) / numPoles)

/-- Modelled from the spec: §4.2 — the body of `AnalogLowShelf::design`
(`ChebyshevII.cpp`, not in `src/`): the §4.1 pole set with every zero placed on
the radius of its pole, scaled by the gain-dependent factor `shelfScale`; at
`gainDb = 0` the layout degenerates to all poles = all zeros. -/
noncomputable def AnalogLowShelf.design (numPoles : ℕ) (gainDb stopBandDb : ℝ) : List PZEntry :=
  ((List.range (numPoles / 2)).map fun j =>
    PZEntry.conjPair (typeIIPole numPoles stopBandDb (j + 1))
      ((shelfScale numPoles gainDb : ℂ) * typeIIPole numPoles stopBandDb (j + 1)))
  ++ (if numPoles % 2 = 1 then
        [PZEntry.single (typeIIPole numPoles stopBandDb ((numPoles + 1) / 2))
          (some ((shelfScale numPoles gainDb : ℂ) *
            typeIIPole numPoles stopBandDb ((numPoles + 1) / 2)))]
      else [])

/-- All poles represented by an entry (a conjugate-pair entry carries the pole
and its conjugate). -/
def entryPoles : PZEntry → List ℂ
  | .conjPair p _ => [p, (starRingEnd ℂ) p]
  | .single p _ => [p]

/-- All finite zeros represented by an entry. -/
def entryZeros : PZEntry → List ℂ
  | .conjPair _ z => [z, (starRingEnd ℂ) z]
  | .single _ (some z) => [z]
  | .single _ none => []

/-- Number of zeros at infinity represented by an entry. -/
def entryInfCount : PZEntry → ℕ
  | .conjPair _ _ => 0
  | .single _ (some _) => 0
  | .single _ none => 1

/-- The full ordered pole list of a layout. -/
def flatPoles (L : List PZEntry) : List ℂ := L.flatMap entryPoles

/-- The full ordered finite-zero list of a layout. -/
def flatZeros (L : List PZEntry) : List ℂ := L.flatMap entryZeros

/-- The number of zeros at infinity of a layout. -/
def infZeroCount (L : List PZEntry) : ℕ := (L.map entryInfCount).sum

/-- Modelled from the spec: §4.3 step 4 — the pre-warped angular target
frequency `(2/T)·tan(ωT/2)` with `T = 1/sampleRate`, `ω = 2π·freq`
(the transform code of `PoleFilter.cpp` is not in `src/`). -/
noncomputable def warpedFreq (sampleRate freq : ℝ) : ℝ :=
  2 * sampleRate * Real.tan (Real.pi * freq / sampleRate)

/-- Modelled from the spec: §4.3 step 5 — applying the bilinear transform
`s = (2/T)·(1−z⁻¹)/(1+z⁻¹)` to an s-plane point `s` yields the z-plane point
`z = (2/T + s)/(2/T − s)`; here `a = 2/T = 2·sampleRate`. -/
noncomputable def blt (a : ℝ) (s : ℂ) : ℂ := ((a : ℂ) + s) / ((a : ℂ) - s)

/-- Principal complex square root, used to solve the band-transform
quadratic. -/
noncomputable def csqrt (w : ℂ) : ℂ := w ^ ((2 : ℂ)⁻¹)

/-- The two roots of `s² − b·s + c = 0`. -/
noncomputable def quadRoots (b c : ℂ) : List ℂ :=
  [(b + csqrt (b ^ 2 - 4 * c)) / 2, (b - csqrt (b ^ 2 - 4 * c)) / 2]

/-- The seven user-facing response types of `ChebyshevII.h`. -/
inductive ResponseKind
  | lowPass | highPass | bandPass | bandStop | lowShelf | highShelf | bandShelf
deriving DecidableEq

/-- The band-type responses (`BandPass`, `BandStop`, `BandShelf`). -/
def isBandKind : ResponseKind → Bool
  | .bandPass | .bandStop | .bandShelf => true
  | _ => false

/-- The shelving responses (`LowShelf`, `HighShelf`, `BandShelf`). -/
def isShelfKind : ResponseKind → Bool
  | .lowShelf | .highShelf | .bandShelf => true
  | _ => false

/-- The `double` parameters of a `setup` call.  `f1` is the cutoff frequency
(or the center frequency for band types), `f2` the width frequency (band types
only), `gainDb` the shelf gain (shelf types only). -/
structure Params where
  sampleRate : ℝ
  f1 : ℝ
  f2 : ℝ
  gainDb : ℝ
  stopBandDb : ℝ

/-- The analog prototype used by each response base: `PoleFilterBase
<AnalogLowPass>` for LowPass/HighPass/BandPass/BandStop and `PoleFilterBase
<AnalogLowShelf>` for the shelves (lines 91–151 of `ChebyshevII.h`). -/
noncomputable def protoEntries (k : ResponseKind) (n : ℕ) (P : Params) : List PZEntry :=
  if isShelfKind k then AnalogLowShelf.design n P.gainDb P.stopBandDb
  else AnalogLowPass.design n P.stopBandDb

/-- Modelled from the spec: §4.3 step 3 — pre-warped band center `ω0`. -/
noncomputable def bandW0 (P : Params) : ℝ := warpedFreq P.sampleRate P.f1

/-- Modelled from the spec: §4.3 step 3 — band width `BW = 2π·widthFrequency`. -/
noncomputable def bandBW (P : Params) : ℝ := 2 * Real.pi * P.f2

/-- Modelled from the spec: §4.3 steps 3–5 — the digital image(s) of one
s-plane prototype point under the response-specific frequency transform
followed by the bilinear transform (`PoleFilter.cpp`, not in `src/`):
LowPass scales by the warped cutoff, HighPass inverts, the band types solve
the band-transform quadratic (two images per point). -/
noncomputable def poleMapList (k : ResponseKind) (P : Params) (s : ℂ) : List ℂ :=
  match k with
  | .lowPass | .lowShelf => [blt (2 * P.sampleRate) ((warpedFreq P.sampleRate P.f1 : ℂ) * s)]
  | .highPass | .highShelf => [blt (2 * P.sampleRate) ((warpedFreq P.sampleRate P.f1 : ℂ) / s)]
  | .bandPass | .bandShelf =>
      (quadRoots ((bandBW P : ℂ) * s) ((bandW0 P : ℂ) ^ 2)).map (blt (2 * P.sampleRate))
  | .bandStop =>
      (quadRoots ((bandBW P : ℂ) / s) ((bandW0 P : ℂ) ^ 2)).map (blt (2 * P.sampleRate))

/-- Modelled from the spec: the digital image(s) of a prototype zero at
infinity: the lowpass transform sends it to `s = ∞`, hence `z = −1`; the
highpass inversion sends it to `s = 0`, hence `z = 1`; the bandpass transform
sends it to `{0, ∞}`, hence `{1, −1}`; the bandstop transform sends it to
`s = ±i·ω0`. -/
noncomputable def infZeroImage (k : ResponseKind) (P : Params) : List ℂ :=
  match k with
  | .lowPass | .lowShelf => [(-1 : ℂ)]
  | .highPass | .highShelf => [(1 : ℂ)]
  | .bandPass | .bandShelf => [(1 : ℂ), (-1 : ℂ)]
  | .bandStop => [blt (2 * P.sampleRate) (Complex.I * (bandW0 P : ℂ)),
                  blt (2 * P.sampleRate) (-(Complex.I * (bandW0 P : ℂ)))]

/-- The pole list of the digital layout produced by the setup pipeline for
response `k` at effective order `n`. -/
noncomputable def digitalPoles (k : ResponseKind) (n : ℕ) (P : Params) : List ℂ :=
  (flatPoles (protoEntries k n P)).flatMap (poleMapList k P)

/-- The zero list of the digital layout produced by the setup pipeline for
response `k` at effective order `n` (finite prototype zeros transformed like
the poles, followed by the images of the zeros at infinity). -/
noncomputable def digitalZeros (k : ResponseKind) (n : ℕ) (P : Params) : List ℂ :=
  (flatZeros (protoEntries k n P)).flatMap (poleMapList k P)
  ++ (List.range (infZeroCount (protoEntries k n P))).flatMap (fun _ => infZeroImage k P)

/-- Modelled from the spec: §6 numeric domain contracts on the `double`
parameters — `sampleRate > 0`, frequencies strictly between `0` and
`sampleRate/2`, `widthFrequency > 0` for band types and `width < center`
for bandstop. -/
def validParams (k : ResponseKind) (P : Params) : Prop :=
  0 < P.sampleRate ∧ 0 < P.f1 ∧ P.f1 < P.sampleRate / 2 ∧ 0 < P.stopBandDb ∧
    (isBandKind k = true → 0 < P.f2 ∧ (k = .bandStop → P.f2 < P.f1))

/-- A digital pole/zero layout (coefficients of a configured filter). -/
structure Layout where
  poles : List ℂ
  zeros : List ℂ

/-- The spec's error taxonomy (§7): CapacityError and DomainError. -/
inductive SetupErr
  | capacity
  | domain
deriving DecidableEq

/-- The C++ usual-arithmetic conversion of a signed `int` value to
`unsigned int`: reduction modulo `2^32`. -/
def toUnsigned (r : Int) : ℕ := (r % (2 ^ 32 : Int)).toNat

/-- The capacity check of every `setup(int reqOrder, …)` wrapper in
`ChebyshevII.h` (for example lines 193, 236, 284, 332, 380, 429, 484):
`reqOrder > FilterOrder` compares the signed `reqOrder` with the unsigned
template parameter `FilterOrder`, so `reqOrder` is first converted to
`unsigned int`. -/
def capacityCheckFails (filterOrder : ℕ) (reqOrder : Int) : Bool :=
  decide (filterOrder < toUnsigned reqOrder)

open Classical in
/-- Modelled from the spec: the response-base `setup` bodies (`ChebyshevII.cpp`,
not in `src/`): §4.3 and §7 — all parameter validation happens before any
layout mutation, out-of-domain parameters (order `< 1`, `stopBandDb ≤ 0`,
frequency at or beyond Nyquist, degenerate band) fail with DomainError, and a
successful call produces the digital layout of §4.3. -/
noncomputable def baseSetup (k : ResponseKind) (order : Int) (P : Params) :
    Except SetupErr Layout :=
  if 1 ≤ order ∧ validParams k P then
    Except.ok ⟨digitalPoles k order.toNat P, digitalZeros k order.toNat P⟩
  else Except.error SetupErr.domain

/-- The `setup (int reqOrder, …)` wrapper of every filter template in
`ChebyshevII.h` (lines 189–198 and analogues): throw CapacityError if the
(converted) requested order exceeds `FilterOrder`, otherwise forward
`reqOrder` unchanged to the base setup. -/
noncomputable def setupReq (k : ResponseKind) (filterOrder : ℕ) (reqOrder : Int) (P : Params) :
    Except SetupErr Layout :=
  if capacityCheckFails filterOrder reqOrder then Except.error SetupErr.capacity
  else baseSetup k reqOrder P

/-- The `setup (double sampleRate, …)` wrapper of every filter template in
`ChebyshevII.h` (lines 173–180 and analogues): forward the full reserved
order `FilterOrder` to the base setup. -/
noncomputable def setupFull (k : ResponseKind) (filterOrder : ℕ) (P : Params) :
    Except SetupErr Layout :=
  baseSetup k (filterOrder : Int) P

/-- Effect of a `setup(reqOrder, …)` call on the filter's stored coefficients:
a successful call replaces them, a failed call (a thrown exception) leaves the
previous coefficients untouched. -/
noncomputable def applySetupReq (k : ResponseKind) (filterOrder : ℕ) (st : Layout)
    (reqOrder : Int) (P : Params) : Layout :=
  match setupReq k filterOrder reqOrder P with
  | .ok L => L
  | .error _ => st

/-- Effect of a full-order `setup(…)` call on the filter's stored
coefficients. -/
noncomputable def applySetupFull (k : ResponseKind) (filterOrder : ℕ) (st : Layout)
    (P : Params) : Layout :=
  match setupFull k filterOrder P with
  | .ok L => L
  | .error _ => st

/-- Digital pole capacity reserved by `LowPass` (line 165 of `ChebyshevII.h`:
`PoleFilter <LowPassBase, StateType, FilterOrder>`). -/
def LowPass.maxDigitalPoles (filterOrder : ℕ) : ℕ := filterOrder

/-- Digital pole capacity reserved by `BandPass` (line 251 of `ChebyshevII.h`:
`PoleFilter <BandPassBase, StateType, FilterOrder, FilterOrder*2>`). -/
def BandPass.maxDigitalPoles (filterOrder : ℕ) : ℕ := filterOrder * 2

/-- Digital pole capacity reserved by `BandStop` (line 299 of
`ChebyshevII.h`). -/
def BandStop.maxDigitalPoles (filterOrder : ℕ) : ℕ := filterOrder * 2

/-- Digital pole capacity reserved by `BandShelf` (line 445 of
`ChebyshevII.h`). -/
def BandShelf.maxDigitalPoles (filterOrder : ℕ) : ℕ := filterOrder * 2

/-- Whether a layout entry becomes a first-order section of the cascade
(modelled from the spec: §4.3 step 6 — an unpaired real pole/zero goes to a
dedicated first-order section, conjugate pairs to second-order sections). -/
def entryIsFirstOrder : PZEntry → Bool
  | .single _ _ => true
  | .conjPair _ _ => false

/-- Number of first-order sections the cascade builder produces from a
layout. -/
def firstOrderSections (L : List PZEntry) : ℕ := (L.filter entryIsFirstOrder).length

/-- Number of second-order sections the cascade builder produces from a
layout. -/
def secondOrderSections (L : List PZEntry) : ℕ :=
  (L.filter fun e => !entryIsFirstOrder e).length

/-- The zero placements of a layout: one representative zero per conjugate-pair
entry (plus the single zero of a shelf's first-order entry, when present). -/
def placedZeros (L : List PZEntry) : List ℂ :=
  L.flatMap fun e => match e with
    | .conjPair _ z => [z]
    | .single _ z => z.toList

/-- Magnitude of the cascade transfer function (up to the positive overall
normalisation gain) at a z-plane point. -/
noncomputable def responseMag (poles zeros : List ℂ) (z : ℂ) : ℝ :=
  (zeros.map fun w => Complex.abs (z - w)).prod /
    (poles.map fun w => Complex.abs (z - w)).prod

/-! Basic facts about the prototype construction. -/

theorem rippleEps_pos {sBd : ℝ} (h : 0 < sBd) : 0 < rippleEps sBd := by
  have h1 : (1 : ℝ) < (10 : ℝ) ^ (sBd / 10) := by
    rw [Real.one_lt_rpow_iff_of_pos (by norm_num)]
    exact Or.inl ⟨by norm_num, by linarith⟩
  have h2 : 0 < Real.sqrt ((10 : ℝ) ^ (sBd / 10) - 1) := Real.sqrt_pos.mpr (by linarith)
  exact div_pos one_pos h2

theorem chebyV0_pos {n : ℕ} {sBd : ℝ} (hn : 1 ≤ n) (h : 0 < sBd) : 0 < chebyV0 n sBd := by
  have he := rippleEps_pos h
  have h1 : 0 < Real.arsinh (1 / rippleEps sBd) := Real.arsinh_pos_iff.mpr (by positivity)
  exact div_pos h1 (by exact_mod_cast Nat.lt_of_lt_of_le Nat.zero_lt_one hn)

theorem chebyAngle_pos {n k : ℕ} (hn : 1 ≤ n) (hk : 1 ≤ k) : 0 < chebyAngle n k := by
  unfold chebyAngle
  have hk' : (1 : ℝ) ≤ (k : ℝ) := by exact_mod_cast hk
  have hn' : (1 : ℝ) ≤ (n : ℝ) := by exact_mod_cast hn
  apply div_pos (mul_pos (by linarith) Real.pi_pos) (by linarith)

theorem chebyAngle_lt_pi {n k : ℕ} (hn : 1 ≤ n) (hk : k ≤ n) : chebyAngle n k < Real.pi := by
  unfold chebyAngle
  have hn' : (1 : ℝ) ≤ (n : ℝ) := by exact_mod_cast hn
  have hk' : (k : ℝ) ≤ (n : ℝ) := by exact_mod_cast hk
  rw [div_lt_iff₀ (by linarith)]
  nlinarith [Real.pi_pos]

theorem typeIPole_re_neg {n k : ℕ} {sBd : ℝ} (hn : 1 ≤ n) (hs : 0 < sBd)
    (hk1 : 1 ≤ k) (hk2 : k ≤ n) : (typeIPole n sBd k).re < 0 := by
  have hsinh : 0 < Real.sinh (chebyV0 n sBd) := Real.sinh_pos_iff.mpr (chebyV0_pos hn hs)
  have hsin : 0 < Real.sin (chebyAngle n k) :=
    Real.sin_pos_of_pos_of_lt_pi (chebyAngle_pos hn hk1) (chebyAngle_lt_pi hn hk2)
  show -(Real.sinh (chebyV0 n sBd) * Real.sin (chebyAngle n k)) < 0
  nlinarith

theorem re_inv_neg {z : ℂ} (h : z.re < 0) : (z⁻¹).re < 0 := by
  have hz : z ≠ 0 := fun h0 => by simp [h0] at h
  rw [Complex.inv_re]
  exact div_neg_of_neg_of_pos h (Complex.normSq_pos.mpr hz)

theorem typeIIPole_re_neg {n k : ℕ} {sBd : ℝ} (hn : 1 ≤ n) (hs : 0 < sBd)
    (hk1 : 1 ≤ k) (hk2 : k ≤ n) : (typeIIPole n sBd k).re < 0 :=
  re_inv_neg (typeIPole_re_neg hn hs hk1 hk2)

theorem conj_re_lt_zero {z : ℂ} (h : z.re < 0) : ((starRingEnd ℂ) z).re < 0 := by
  rw [Complex.conj_re]; exact h

theorem mem_flatPoles_design {n : ℕ} {sBd : ℝ} {p : ℂ}
    (hp : p ∈ flatPoles (AnalogLowPass.design n sBd)) :
    ∃ k, 1 ≤ k ∧ k ≤ n ∧
      (p = typeIIPole n sBd k ∨ p = (starRingEnd ℂ) (typeIIPole n sBd k)) := by
  unfold flatPoles AnalogLowPass.design at hp
  rw [List.flatMap_append, List.mem_append] at hp
  rcases hp with hp | hp
  · rw [List.flatMap_map] at hp
    simp only [List.mem_flatMap, List.mem_range] at hp
    obtain ⟨j, hj, hmem⟩ := hp
    simp only [entryPoles, List.mem_cons, List.not_mem_nil, or_false] at hmem
    refine ⟨j + 1, by omega, ?_, hmem⟩
    have := Nat.div_le_self n 2
    omega
  · by_cases hodd : n % 2 = 1
    · simp only [hodd, if_pos, List.flatMap_cons, List.flatMap_nil, List.append_nil,
        entryPoles, List.mem_cons, List.not_mem_nil, or_false] at hp
      exact ⟨(n + 1) / 2, by omega, by omega, Or.inl hp⟩
    · simp [hodd] at hp

theorem design_poles_re_neg {n : ℕ} {sBd : ℝ} (hn : 1 ≤ n) (hs : 0 < sBd) :
    ∀ p ∈ flatPoles (AnalogLowPass.design n sBd), p.re < 0 := by
  intro p hp
  obtain ⟨k, hk1, hk2, h | h⟩ := mem_flatPoles_design hp <;> rw [h]
  · exact typeIIPole_re_neg hn hs hk1 hk2
  · exact conj_re_lt_zero (typeIIPole_re_neg hn hs hk1 hk2)

theorem shelf_flatPoles (n : ℕ) (g sBd : ℝ) :
    flatPoles (AnalogLowShelf.design n g sBd) = flatPoles (AnalogLowPass.design n sBd) := by
  unfold flatPoles AnalogLowShelf.design AnalogLowPass.design
  rw [List.flatMap_append, List.flatMap_append, List.flatMap_map, List.flatMap_map]
  by_cases hodd : n % 2 = 1 <;> simp [hodd, entryPoles]

theorem protoPoles_re_neg {k : ResponseKind} {n : ℕ} {P : Params} (hn : 1 ≤ n)
    (hs : 0 < P.stopBandDb) : ∀ p ∈ flatPoles (protoEntries k n P), p.re < 0 := by
  intro p hp
  unfold protoEntries at hp
  by_cases hk : isShelfKind k = true
  · rw [if_pos hk, shelf_flatPoles] at hp
    exact design_poles_re_neg hn hs p hp
  · rw [if_neg hk] at hp
    exact design_poles_re_neg hn hs p hp

/-! The bilinear transform maps the open left half-plane into the open unit
disc. -/

theorem abs_blt_lt_one {a : ℝ} {s : ℂ} (ha : 0 < a) (hs : s.re < 0) :
    Complex.abs (blt a s) < 1 := by
  have hden_re : 0 < ((a : ℂ) - s).re := by
    simp only [Complex.sub_re, Complex.ofReal_re]
    linarith
  have hden : ((a : ℂ) - s) ≠ 0 := by
    intro h
    rw [h] at hden_re
    simp at hden_re
  have habs : 0 < Complex.abs ((a : ℂ) - s) := Complex.abs.pos hden
  rw [blt, map_div₀, div_lt_one habs, Complex.abs_apply, Complex.abs_apply]
  apply Real.sqrt_lt_sqrt (Complex.normSq_nonneg _)
  simp only [Complex.normSq_apply, Complex.add_re, Complex.add_im, Complex.sub_re,
    Complex.sub_im, Complex.ofReal_re, Complex.ofReal_im]
  nlinarith [mul_pos ha (neg_pos.mpr hs), sq_nonneg s.im]

/-! Roots of the band-transform quadratic. -/

theorem csqrt_sq (w : ℂ) : csqrt w ^ 2 = w := by
  by_cases hw : w = 0
  · subst hw
    rw [csqrt, Complex.zero_cpow (by norm_num)]
    norm_num
  · have h := Complex.cpow_nat_inv_pow w (n := 2) (by norm_num)
    rw [csqrt]
    simp only [Nat.cast_ofNat] at h
    exact h

theorem quadRoots_root {b c s : ℂ} (hs : s ∈ quadRoots b c) : s ^ 2 - b * s + c = 0 := by
  have hr : csqrt (b ^ 2 - 4 * c) ^ 2 = b ^ 2 - 4 * c := csqrt_sq _
  simp only [quadRoots, List.mem_cons, List.not_mem_nil, or_false] at hs
  rcases hs with hs | hs <;> rw [hs] <;> linear_combination hr / 4

theorem bandpass_root_re_neg {bwv w0 : ℝ} {p s : ℂ} (hbw : 0 < bwv) (hw0 : w0 ≠ 0)
    (hp : p.re < 0) (h : s ^ 2 - ((bwv : ℂ) * p) * s + ((w0 : ℂ)) ^ 2 = 0) : s.re < 0 := by
  have hs0 : s ≠ 0 := by
    intro h0
    subst h0
    simp only [ne_eq, OfNat.ofNat_ne_zero, not_false_eq_true, zero_pow, mul_zero, sub_zero,
      zero_add, pow_eq_zero_iff] at h
    exact hw0 (by exact_mod_cast h)
  have key : (bwv : ℂ) * p = s + ((w0 ^ 2 : ℝ) : ℂ) * s⁻¹ := by
    field_simp
    linear_combination -h
  have hre := congrArg Complex.re key
  simp only [Complex.add_re, Complex.mul_re, Complex.ofReal_re, Complex.ofReal_im,
    Complex.inv_re, Complex.inv_im, zero_mul, mul_zero, sub_zero, zero_sub] at hre
  have hns : 0 < Complex.normSq s := Complex.normSq_pos.mpr hs0
  by_contra hcon
  push_neg at hcon
  have h1 : 0 ≤ s.re + w0 ^ 2 * (s.re / Complex.normSq s) :=
    add_nonneg hcon (mul_nonneg (sq_nonneg _) (div_nonneg hcon hns.le))
  have h2 : bwv * p.re < 0 := mul_neg_of_pos_of_neg hbw hp
  linarith [hre]

theorem bandstop_root_re_neg {bwv w0 : ℝ} {p s : ℂ} (hbw : 0 < bwv) (hw0 : w0 ≠ 0)
    (hp : p.re < 0) (h : s ^ 2 - ((bwv : ℂ) / p) * s + ((w0 : ℂ)) ^ 2 = 0) : s.re < 0 := by
  have hp0 : p ≠ 0 := by
    intro h0
    simp [h0] at hp
  have hs0 : s ≠ 0 := by
    intro h0
    subst h0
    simp only [ne_eq, OfNat.ofNat_ne_zero, not_false_eq_true, zero_pow, mul_zero, sub_zero,
      zero_add, pow_eq_zero_iff] at h
    exact hw0 (by exact_mod_cast h)
  have hinv : p * p⁻¹ = 1 := mul_inv_cancel₀ hp0
  have key : (bwv : ℂ) / p = s + ((w0 ^ 2 : ℝ) : ℂ) * s⁻¹ := by
    field_simp
    linear_combination (-p) * h - (bwv : ℂ) * s * hinv
  have hre := congrArg Complex.re key
  rw [div_eq_mul_inv] at hre
  simp only [Complex.add_re, Complex.mul_re, Complex.ofReal_re, Complex.ofReal_im,
    Complex.inv_re, Complex.inv_im, zero_mul, mul_zero, sub_zero, zero_sub] at hre
  have hns : 0 < Complex.normSq s := Complex.normSq_pos.mpr hs0
  have hnp : 0 < Complex.normSq p := Complex.normSq_pos.mpr hp0
  by_contra hcon
  push_neg at hcon
  have h1 : 0 ≤ s.re + w0 ^ 2 * (s.re / Complex.normSq s) :=
    add_nonneg hcon (mul_nonneg (sq_nonneg _) (div_nonneg hcon hns.le))
  have h2 : bwv * (p.re / Complex.normSq p) < 0 :=
    mul_neg_of_pos_of_neg hbw (div_neg_of_neg_of_pos hp hnp)
  linarith [hre]

theorem warpedFreq_pos {fs f : ℝ} (hfs : 0 < fs) (hf : 0 < f) (hny : f < fs / 2) :
    0 < warpedFreq fs f := by
  unfold warpedFreq
  have h1 : 0 < Real.pi * f / fs := by positivity
  have h2 : Real.pi * f / fs < Real.pi / 2 := by
    rw [div_lt_div_iff₀ hfs two_pos]
    nlinarith [Real.pi_pos]
  have h3 := Real.tan_pos_of_pos_of_lt_pi_div_two h1 h2
  positivity

/-- C1: for every valid pair `(numPoles, stopBandDb)` and every response type,
every pole of the digital layout produced by the setup pipeline (prototype
design, frequency transform, bilinear transform) has magnitude strictly less
than 1. -/
theorem setup_digital_poles_stable (k : ResponseKind) (n : ℕ) (P : Params)
    (hn : 1 ≤ n) (hv : validParams k P) :
    ∀ z ∈ digitalPoles k n P, Complex.abs z < 1 := by
  obtain ⟨hfs, hf1, hny, hsb, hband⟩ := hv
  have h2fs : 0 < 2 * P.sampleRate := by linarith
  have hw : 0 < warpedFreq P.sampleRate P.f1 := warpedFreq_pos hfs hf1 hny
  intro z hz
  unfold digitalPoles at hz
  rw [List.mem_flatMap] at hz
  obtain ⟨p, hpmem, hz⟩ := hz
  have hpre : p.re < 0 := protoPoles_re_neg hn hsb p hpmem
  cases k with
  | lowPass =>
      rw [poleMapList, List.mem_singleton] at hz
      subst hz
      apply abs_blt_lt_one h2fs
      simp only [Complex.mul_re, Complex.ofReal_re, Complex.ofReal_im, zero_mul, sub_zero]
      exact mul_neg_of_pos_of_neg hw hpre
  | lowShelf =>
      rw [poleMapList, List.mem_singleton] at hz
      subst hz
      apply abs_blt_lt_one h2fs
      simp only [Complex.mul_re, Complex.ofReal_re, Complex.ofReal_im, zero_mul, sub_zero]
      exact mul_neg_of_pos_of_neg hw hpre
  | highPass =>
      rw [poleMapList, List.mem_singleton] at hz
      subst hz
      apply abs_blt_lt_one h2fs
      rw [div_eq_mul_inv]
      simp only [Complex.mul_re, Complex.ofReal_re, Complex.ofReal_im, zero_mul, sub_zero]
      exact mul_neg_of_pos_of_neg hw (re_inv_neg hpre)
  | highShelf =>
      rw [poleMapList, List.mem_singleton] at hz
      subst hz
      apply abs_blt_lt_one h2fs
      rw [div_eq_mul_inv]
      simp only [Complex.mul_re, Complex.ofReal_re, Complex.ofReal_im, zero_mul, sub_zero]
      exact mul_neg_of_pos_of_neg hw (re_inv_neg hpre)
  | bandPass =>
      obtain ⟨hf2, -⟩ := hband rfl
      rw [poleMapList, List.mem_map] at hz
      obtain ⟨s, hsmem, rfl⟩ := hz
      have hq := quadRoots_root hsmem
      have hbw : 0 < bandBW P := by
        unfold bandBW
        positivity
      exact abs_blt_lt_one h2fs (bandpass_root_re_neg hbw (ne_of_gt hw) hpre hq)
  | bandShelf =>
      obtain ⟨hf2, -⟩ := hband rfl
      rw [poleMapList, List.mem_map] at hz
      obtain ⟨s, hsmem, rfl⟩ := hz
      have hq := quadRoots_root hsmem
      have hbw : 0 < bandBW P := by
        unfold bandBW
        positivity
      exact abs_blt_lt_one h2fs (bandpass_root_re_neg hbw (ne_of_gt hw) hpre hq)
  | bandStop =>
      obtain ⟨hf2, -⟩ := hband rfl
      rw [poleMapList, List.mem_map] at hz
      obtain ⟨s, hsmem, rfl⟩ := hz
      have hq := quadRoots_root hsmem
      have hbw : 0 < bandBW P := by
        unfold bandBW
        positivity
      exact abs_blt_lt_one h2fs (bandstop_root_re_neg hbw (ne_of_gt hw) hpre hq)

/-- Witness for C1: `LowPass` at order 4, sampleRate 48000, cutoff 1000,
stopBandDb 40. -/
theorem setup_digital_poles_stable_witness :
    (1 ≤ 4 ∧ validParams ResponseKind.lowPass ⟨48000, 1000, 200, 0, 40⟩) ∧
      ∀ z ∈ digitalPoles ResponseKind.lowPass 4 ⟨48000, 1000, 200, 0, 40⟩,
        Complex.abs z < 1 := by
  have hv : validParams ResponseKind.lowPass ⟨48000, 1000, 200, 0, 40⟩ := by
    refine ⟨by norm_num, by norm_num, by norm_num, by norm_num, ?_⟩
    intro h
    simp [isBandKind] at h
  exact ⟨⟨by norm_num, hv⟩,
    setup_digital_poles_stable ResponseKind.lowPass 4 _ (by norm_num) hv⟩

/-- C3: `AnalogLowPass::design` computes the ripple factor as
`ε = 1/sqrt(10^(stopBandDb/10) − 1)`, constructs the order-N Type-I Chebyshev
poles by the standard hyperbolic construction (`sinh`/`cosh` of
`(1/N)·asinh(1/ε)` with angles `(2k−1)·π/(2N)`), and replaces every pole by
its reciprocal; this reciprocation preserves strictly negative real parts. -/
theorem design_ripple_and_reciprocal_poles (n k : ℕ) (sBd : ℝ)
    (hn : 1 ≤ n) (hs : 0 < sBd) (hk1 : 1 ≤ k) (hk2 : k ≤ n) :
    rippleEps sBd = 1 / Real.sqrt ((10 : ℝ) ^ (sBd / 10) - 1) ∧
      typeIPole n sBd k =
        ⟨-(Real.sinh (Real.arsinh (1 / rippleEps sBd) / n) *
            Real.sin ((2 * (k : ℝ) - 1) * Real.pi / (2 * n))),
          Real.cosh (Real.arsinh (1 / rippleEps sBd) / n) *
            Real.cos ((2 * (k : ℝ) - 1) * Real.pi / (2 * n))⟩ ∧
      typeIIPole n sBd k = (typeIPole n sBd k)⁻¹ ∧
      (typeIPole n sBd k).re < 0 ∧ (typeIIPole n sBd k).re < 0 :=
  ⟨rfl, rfl, rfl, typeIPole_re_neg hn hs hk1 hk2, typeIIPole_re_neg hn hs hk1 hk2⟩

/-- Witness for C3 at `numPoles = 4`, `stopBandDb = 40`, `k = 1`. -/
theorem design_ripple_and_reciprocal_poles_witness :
    ((1 ≤ 4 ∧ (0 : ℝ) < 40) ∧ 1 ≤ 1 ∧ 1 ≤ 4) ∧
      (typeIPole 4 40 1).re < 0 ∧ (typeIIPole 4 40 1).re < 0 :=
  ⟨⟨⟨by norm_num, by norm_num⟩, by norm_num, by norm_num⟩,
    (design_ripple_and_reciprocal_poles 4 1 40 (by norm_num) (by norm_num) (by norm_num)
      (by norm_num)).2.2.2⟩

/-- C8: every pole of the analog layout produced by `AnalogLowPass::design` or
`AnalogLowShelf::design` has strictly negative real part, for every valid
`(numPoles, stopBandDb)` and, for the shelf, every `gainDb`. -/
theorem analog_poles_left_half_plane (n : ℕ) (sBd : ℝ) (hn : 1 ≤ n) (hs : 0 < sBd) :
    (∀ p ∈ flatPoles (AnalogLowPass.design n sBd), p.re < 0) ∧
      ∀ gainDb : ℝ, ∀ p ∈ flatPoles (AnalogLowShelf.design n gainDb sBd), p.re < 0 := by
  refine ⟨design_poles_re_neg hn hs, fun gainDb p hp => ?_⟩
  rw [shelf_flatPoles] at hp
  exact design_poles_re_neg hn hs p hp

/-- Witness for C8 at `numPoles = 3`, `stopBandDb = 20`. -/
theorem analog_poles_left_half_plane_witness :
    ((1 ≤ 3 ∧ (0 : ℝ) < 20)) ∧ ∀ p ∈ flatPoles (AnalogLowPass.design 3 20), p.re < 0 :=
  ⟨⟨by norm_num, by norm_num⟩,
    (analog_poles_left_half_plane 3 20 (by norm_num) (by norm_num)).1⟩

/-! The order-capacity check of the `setup(int reqOrder, …)` wrappers. -/

theorem capacityCheckFails_true {filterOrder : ℕ} {reqOrder : Int}
    (h : (filterOrder : Int) < reqOrder % 2 ^ 32) :
    capacityCheckFails filterOrder reqOrder = true := by
  unfold capacityCheckFails toUnsigned
  simp only [decide_eq_true_eq]
  omega

theorem capacityCheckFails_false {filterOrder : ℕ} {reqOrder : Int}
    (h : reqOrder % 2 ^ 32 ≤ (filterOrder : Int)) :
    capacityCheckFails filterOrder reqOrder = false := by
  unfold capacityCheckFails toUnsigned
  simp only [decide_eq_false_iff_not]
  omega

theorem setupReq_of_check_true {k : ResponseKind} {filterOrder : ℕ} {reqOrder : Int}
    {P : Params} (h : capacityCheckFails filterOrder reqOrder = true) :
    setupReq k filterOrder reqOrder P = Except.error SetupErr.capacity := by
  unfold setupReq
  rw [h]
  rfl

theorem setupReq_of_check_false {k : ResponseKind} {filterOrder : ℕ} {reqOrder : Int}
    {P : Params} (h : capacityCheckFails filterOrder reqOrder = false) :
    setupReq k filterOrder reqOrder P = baseSetup k reqOrder P := by
  unfold setupReq
  rw [h]
  rfl

theorem baseSetup_err_of_nonpos {k : ResponseKind} {order : Int} {P : Params}
    (h : order ≤ 0) : baseSetup k order P = Except.error SetupErr.domain := by
  unfold baseSetup
  rw [if_neg]
  intro hc
  omega

theorem baseSetup_err_of_invalid {k : ResponseKind} {order : Int} {P : Params}
    (h : ¬ validParams k P) : baseSetup k order P = Except.error SetupErr.domain := by
  unfold baseSetup
  rw [if_neg]
  intro hc
  exact h hc.2

/-- C2: calling the `reqOrder` overload of `setup` with `reqOrder` greater than
the reserved `FilterOrder` always fails with CapacityError before any
computation, leaving the previously computed coefficients unchanged and never
silently clamping; calling it with `reqOrder = FilterOrder` (at least 1, with
otherwise valid parameters) always succeeds. -/
theorem setup_req_order_capacity (k : ResponseKind) (filterOrder : ℕ) (st : Layout)
    (reqOrder : Int) (P : Params) (hrange : reqOrder < 2 ^ 31) :
    ((filterOrder : Int) < reqOrder →
        setupReq k filterOrder reqOrder P = Except.error SetupErr.capacity ∧
          applySetupReq k filterOrder st reqOrder P = st) ∧
      (reqOrder = (filterOrder : Int) → 1 ≤ filterOrder → validParams k P →
        setupReq k filterOrder reqOrder P =
          Except.ok ⟨digitalPoles k filterOrder P, digitalZeros k filterOrder P⟩) := by
  constructor
  · intro hgt
    have hc : capacityCheckFails filterOrder reqOrder = true :=
      capacityCheckFails_true (by omega)
    have hs := setupReq_of_check_true (k := k) (P := P) hc
    refine ⟨hs, ?_⟩
    unfold applySetupReq
    rw [hs]
  · intro heq h1 hv
    subst heq
    have hc : capacityCheckFails filterOrder ((filterOrder : Int)) = false :=
      capacityCheckFails_false (by omega)
    rw [setupReq_of_check_false hc]
    unfold baseSetup
    rw [if_pos ⟨by exact_mod_cast h1, hv⟩]
    simp

/-- Witness for C2 at `LowPass`, `FilterOrder = 4`, `reqOrder = 4`,
sampleRate 48000, cutoff 1000, stopBandDb 40. -/
theorem setup_req_order_capacity_witness :
    ((4 : Int) < 2 ^ 31) ∧
      (setupReq ResponseKind.lowPass 4 4 ⟨48000, 1000, 200, 0, 40⟩ =
        Except.ok ⟨digitalPoles ResponseKind.lowPass 4 ⟨48000, 1000, 200, 0, 40⟩,
          digitalZeros ResponseKind.lowPass 4 ⟨48000, 1000, 200, 0, 40⟩⟩) := by
  have hv : validParams ResponseKind.lowPass ⟨48000, 1000, 200, 0, 40⟩ := by
    refine ⟨by norm_num, by norm_num, by norm_num, by norm_num, ?_⟩
    intro h
    simp [isBandKind] at h
  exact ⟨by norm_num,
    (setup_req_order_capacity ResponseKind.lowPass 4 ⟨[], []⟩ 4 _ (by norm_num)).2 rfl
      (by norm_num) hv⟩

/-- C10 counterexample: with `FilterOrder` instantiated at `UINT_MAX =
2^32 − 1`, the negative request `reqOrder = −1` converts to exactly
`2^32 − 1`, which is not greater than `FilterOrder`, so it passes the wrapper
check unrejected (the base setup then fails with DomainError, not the
order-too-high CapacityError the claim promises). -/
theorem negative_req_order_check_cex :
    capacityCheckFails 4294967295 (-1) = false ∧
      setupReq ResponseKind.lowPass 4294967295 (-1) ⟨48000, 1000, 200, 0, 40⟩ =
        Except.error SetupErr.domain := by
  have hc : capacityCheckFails 4294967295 (-1) = false :=
    capacityCheckFails_false (by omega)
  exact ⟨hc, by rw [setupReq_of_check_false hc, baseSetup_err_of_nonpos (by omega)]⟩

/-- C10 (amended): in every `reqOrder` overload of `setup`, the signed
`reqOrder` is compared against the unsigned `FilterOrder`; provided
`FilterOrder < 2^31`, every negative `reqOrder` is converted to a large
unsigned value (at least `2^31`) and rejected with the order-too-high
exception, while `reqOrder = 0` passes this check and is forwarded to the
base setup with no validation in the wrapper. -/
theorem negative_req_order_check (k : ResponseKind) (filterOrder : ℕ) (reqOrder : Int)
    (P : Params) (hfo : filterOrder < 2 ^ 31) (hneg : reqOrder < 0)
    (hrange : -(2 ^ 31) ≤ reqOrder) :
    2 ^ 31 ≤ toUnsigned reqOrder ∧
      setupReq k filterOrder reqOrder P = Except.error SetupErr.capacity ∧
      capacityCheckFails filterOrder 0 = false ∧
      setupReq k filterOrder 0 P = baseSetup k 0 P := by
  have hbig : 2 ^ 31 ≤ toUnsigned reqOrder := by
    unfold toUnsigned
    omega
  have hc : capacityCheckFails filterOrder reqOrder = true :=
    capacityCheckFails_true (by omega)
  have hc0 : capacityCheckFails filterOrder 0 = false :=
    capacityCheckFails_false (by omega)
  exact ⟨hbig, setupReq_of_check_true hc, hc0, setupReq_of_check_false hc0⟩

/-- Witness for C10 (amended) at `FilterOrder = 4`, `reqOrder = −1`. -/
theorem negative_req_order_check_witness :
    ((4 : ℕ) < 2 ^ 31 ∧ (-1 : Int) < 0 ∧ -(2 ^ 31) ≤ (-1 : Int)) ∧
      setupReq ResponseKind.lowPass 4 (-1) ⟨48000, 1000, 200, 0, 40⟩ =
        Except.error SetupErr.capacity :=
  ⟨⟨by norm_num, by norm_num, by norm_num⟩,
    (negative_req_order_check ResponseKind.lowPass 4 (-1) _ (by norm_num) (by norm_num)
      (by norm_num)).2.1⟩

/-- C5: every setup entry point rejects out-of-domain parameters (order 0,
`stopBandDb ≤ 0`, cutoff/center frequency at or beyond Nyquist, degenerate
bandstop band specification), and every such rejection happens before any
layout mutation, so the filter retains its previous configuration. -/
theorem setup_rejects_out_of_domain (k : ResponseKind) (filterOrder : ℕ) (reqOrder : Int)
    (st : Layout) (P : Params) :
    ((filterOrder = 0 ∨ P.stopBandDb ≤ 0 ∨ P.sampleRate / 2 ≤ P.f1 ∨
        (k = ResponseKind.bandStop ∧ P.f1 ≤ P.f2)) →
      (∃ e, setupFull k filterOrder P = Except.error e) ∧
        applySetupFull k filterOrder st P = st) ∧
    ((reqOrder = 0 ∨ P.stopBandDb ≤ 0 ∨ P.sampleRate / 2 ≤ P.f1 ∨
        (k = ResponseKind.bandStop ∧ P.f1 ≤ P.f2)) →
      (∃ e, setupReq k filterOrder reqOrder P = Except.error e) ∧
        applySetupReq k filterOrder st reqOrder P = st) := by
  have hnv : (P.stopBandDb ≤ 0 ∨ P.sampleRate / 2 ≤ P.f1 ∨
      (k = ResponseKind.bandStop ∧ P.f1 ≤ P.f2)) → ¬ validParams k P := by
    intro h
    rcases h with h | h | ⟨hk, hdeg⟩
    · exact fun hv => absurd hv.2.2.2.1 (not_lt.mpr h)
    · exact fun hv => absurd hv.2.2.1 (not_lt.mpr h)
    · subst hk
      exact fun hv => absurd ((hv.2.2.2.2 rfl).2 rfl) (not_lt.mpr hdeg)
  constructor
  · intro hviol
    have herr : setupFull k filterOrder P = Except.error SetupErr.domain := by
      unfold setupFull
      rcases hviol with h0 | h
      · subst h0
        exact baseSetup_err_of_nonpos (by norm_num)
      · exact baseSetup_err_of_invalid (hnv h)
    refine ⟨⟨_, herr⟩, ?_⟩
    unfold applySetupFull
    rw [herr]
  · intro hviol
    obtain ⟨e, he⟩ : ∃ e, setupReq k filterOrder reqOrder P = Except.error e := by
      by_cases hc : capacityCheckFails filterOrder reqOrder = true
      · exact ⟨_, setupReq_of_check_true hc⟩
      · rw [setupReq_of_check_false (by simpa using hc)]
        rcases hviol with h0 | h
        · subst h0
          exact ⟨_, baseSetup_err_of_nonpos (by norm_num)⟩
        · exact ⟨_, baseSetup_err_of_invalid (hnv h)⟩
    refine ⟨⟨e, he⟩, ?_⟩
    unfold applySetupReq
    rw [he]

/-- Witness for C5: `setup(reqOrder = 0, …)` on a `LowPass` reserved at order 4
with otherwise fully valid parameters is rejected with the coefficients
retained; a full-order `setup` on a reserved order 0 and a `setup` with
`stopBandDb = −1 ≤ 0` are likewise rejected with the coefficients retained. -/
theorem setup_rejects_out_of_domain_witness :
    applySetupReq ResponseKind.lowPass 4 ⟨[], []⟩ 0 ⟨48000, 1000, 200, 0, 40⟩ = ⟨[], []⟩ ∧
      applySetupFull ResponseKind.lowPass 0 ⟨[], []⟩ ⟨48000, 1000, 200, 0, 40⟩ = ⟨[], []⟩ ∧
      applySetupFull ResponseKind.lowPass 4 ⟨[], []⟩ ⟨48000, 1000, 200, 0, -1⟩ = ⟨[], []⟩ :=
  ⟨((setup_rejects_out_of_domain ResponseKind.lowPass 4 0 ⟨[], []⟩
      ⟨48000, 1000, 200, 0, 40⟩).2 (Or.inl rfl)).2,
    ((setup_rejects_out_of_domain ResponseKind.lowPass 0 0 ⟨[], []⟩
      ⟨48000, 1000, 200, 0, 40⟩).1 (Or.inl rfl)).2,
    ((setup_rejects_out_of_domain ResponseKind.lowPass 4 3 ⟨[], []⟩
      ⟨48000, 1000, 200, 0, -1⟩).1 (Or.inr (Or.inl (by norm_num)))).2⟩

/-! Counting lemmas for layouts and the cascade. -/

theorem flatMap_single_eq_map {α β : Type} (l : List α) (f : α → β) :
    (l.flatMap fun a => [f a]) = l.map f := by
  induction l with
  | nil => rfl
  | cons a t ih => simp [ih]

theorem flatMap_length_two {α β : Type} (l : List α) (f : α → List β)
    (h : ∀ a ∈ l, (f a).length = 2) : (l.flatMap f).length = 2 * l.length := by
  induction l with
  | nil => rfl
  | cons a t ih =>
      rw [List.flatMap_cons, List.length_append, h a (by simp),
        ih fun x hx => h x (by simp [hx]), List.length_cons]
      ring

theorem middle_angle {n : ℕ} (hodd : n % 2 = 1) :
    chebyAngle n ((n + 1) / 2) = Real.pi / 2 := by
  unfold chebyAngle
  have h2 : ((n + 1) / 2 : ℕ) * 2 = n + 1 := by omega
  have h2' : ((((n + 1) / 2 : ℕ) : ℝ)) * 2 = (n : ℝ) + 1 := by exact_mod_cast h2
  have hn0 : (n : ℝ) ≠ 0 := Nat.cast_ne_zero.mpr (by omega)
  rw [show 2 * ((((n + 1) / 2 : ℕ)) : ℝ) - 1 = (n : ℝ) by linarith]
  field_simp
  ring

theorem middle_pole_real {n : ℕ} {sBd : ℝ} (hodd : n % 2 = 1) :
    (typeIIPole n sBd ((n + 1) / 2)).im = 0 := by
  unfold typeIIPole
  rw [Complex.inv_im]
  have him : (typeIPole n sBd ((n + 1) / 2)).im = 0 := by
    show Real.cosh _ * Real.cos (chebyAngle n ((n + 1) / 2)) = 0
    rw [middle_angle hodd, Real.cos_pi_div_two, mul_zero]
  rw [him]
  simp

theorem placedZeros_design (n : ℕ) (sBd : ℝ) :
    placedZeros (AnalogLowPass.design n sBd)
      = (List.range (n / 2)).map fun j => typeIIZero n (j + 1) := by
  unfold placedZeros AnalogLowPass.design
  rw [List.flatMap_append, List.flatMap_map]
  by_cases hodd : n % 2 = 1 <;> simp [hodd, flatMap_single_eq_map]

/-- C4: for every `numPoles = N ≥ 1`, `AnalogLowPass::design` places exactly
`⌊N/2⌋` zeros, at `1/(j·cos((2k−1)·π/(2N)))` for `k = 1..⌊N/2⌋`; when `N` is
odd exactly one real pole remains without a paired zero, and the resulting
cascade contains exactly one first-order section and `⌊N/2⌋` second-order
sections. -/
theorem design_zero_placement_and_sections (n : ℕ) (sBd : ℝ) (hn : 1 ≤ n) :
    placedZeros (AnalogLowPass.design n sBd)
        = (List.range (n / 2)).map
            (fun j => (Complex.I * (Real.cos (chebyAngle n (j + 1)) : ℂ))⁻¹) ∧
      (placedZeros (AnalogLowPass.design n sBd)).length = n / 2 ∧
      (n % 2 = 1 →
        (AnalogLowPass.design n sBd).filter entryIsFirstOrder
            = [PZEntry.single (typeIIPole n sBd ((n + 1) / 2)) none] ∧
          (typeIIPole n sBd ((n + 1) / 2)).im = 0 ∧
          firstOrderSections (AnalogLowPass.design n sBd) = 1 ∧
          secondOrderSections (AnalogLowPass.design n sBd) = n / 2) := by
  have hz := placedZeros_design n sBd
  refine ⟨hz, by rw [hz]; simp, fun hodd => ?_⟩
  have hfilter : (AnalogLowPass.design n sBd).filter entryIsFirstOrder
      = [PZEntry.single (typeIIPole n sBd ((n + 1) / 2)) none] := by
    unfold AnalogLowPass.design
    rw [List.filter_append]
    simp [hodd, List.filter_map, entryIsFirstOrder, Function.comp_def]
  refine ⟨hfilter, middle_pole_real hodd, ?_, ?_⟩
  · unfold firstOrderSections
    rw [hfilter]
    rfl
  · unfold secondOrderSections AnalogLowPass.design
    rw [List.filter_append]
    simp [hodd, List.filter_map, entryIsFirstOrder, Function.comp_def]

/-- Witness for C4 at `numPoles = 5`, `stopBandDb = 30`. -/
theorem design_zero_placement_and_sections_witness :
    (1 ≤ 5) ∧ (placedZeros (AnalogLowPass.design 5 30)).length = 5 / 2 ∧
      firstOrderSections (AnalogLowPass.design 5 30) = 1 ∧
      secondOrderSections (AnalogLowPass.design 5 30) = 5 / 2 := by
  have h := design_zero_placement_and_sections 5 30 (by norm_num)
  have hodd := h.2.2 (by norm_num)
  exact ⟨by norm_num, h.2.1, hodd.2.2.1, hodd.2.2.2⟩

theorem flatPoles_design_length (n : ℕ) (sBd : ℝ) :
    (flatPoles (AnalogLowPass.design n sBd)).length = n := by
  unfold flatPoles AnalogLowPass.design
  rw [List.flatMap_append, List.length_append, List.flatMap_map]
  have h1 : ((List.range (n / 2)).flatMap fun j =>
      entryPoles (PZEntry.conjPair (typeIIPole n sBd (j + 1)) (typeIIZero n (j + 1)))).length
      = 2 * (n / 2) := by
    rw [flatMap_length_two]
    · rw [List.length_range]
    · intro a _
      rfl
  rw [h1]
  by_cases hodd : n % 2 = 1 <;> simp [hodd, entryPoles] <;> omega

theorem protoPoles_length (k : ResponseKind) (n : ℕ) (P : Params) :
    (flatPoles (protoEntries k n P)).length = n := by
  unfold protoEntries
  by_cases hk : isShelfKind k = true
  · rw [if_pos hk, shelf_flatPoles, flatPoles_design_length]
  · rw [if_neg hk, flatPoles_design_length]

/-- C6: the s-plane band transform doubles the pole count of the prototype:
the band-type filter templates reserve capacity for `FilterOrder*2` digital
poles, and the digital layout of a band-type filter of order `n` contains
exactly `2·n` poles (e.g. a BandPass of order 2 yields 4 poles). -/
theorem band_transform_doubles (filterOrder n : ℕ) (P : Params) :
    BandPass.maxDigitalPoles filterOrder = filterOrder * 2 ∧
      BandStop.maxDigitalPoles filterOrder = filterOrder * 2 ∧
      BandShelf.maxDigitalPoles filterOrder = filterOrder * 2 ∧
      (digitalPoles ResponseKind.bandPass n P).length = 2 * n ∧
      (digitalPoles ResponseKind.bandStop n P).length = 2 * n ∧
      (digitalPoles ResponseKind.bandShelf n P).length = 2 * n := by
  refine ⟨rfl, rfl, rfl, ?_, ?_, ?_⟩ <;>
  · unfold digitalPoles
    rw [flatMap_length_two]
    · rw [protoPoles_length]
    · intro s _
      rfl

/-! Conjugate symmetry of the digital layouts. -/

/-- A list of complex numbers closed under complex conjugation. -/
def ConjClosed (L : List ℂ) : Prop := ∀ z ∈ L, (starRingEnd ℂ) z ∈ L

theorem conjClosed_append {L1 L2 : List ℂ} (h1 : ConjClosed L1) (h2 : ConjClosed L2) :
    ConjClosed (L1 ++ L2) := by
  intro z hz
  rw [List.mem_append] at hz ⊢
  rcases hz with hz | hz
  · exact Or.inl (h1 z hz)
  · exact Or.inr (h2 z hz)

theorem conjClosed_entry_flatMap {L : List PZEntry} {g : PZEntry → List ℂ}
    (h : ∀ e ∈ L, ConjClosed (g e)) : ConjClosed (L.flatMap g) := by
  intro z hz
  rw [List.mem_flatMap] at hz ⊢
  obtain ⟨e, he, hze⟩ := hz
  exact ⟨e, he, h e he z hze⟩

theorem conjClosed_map_pipeline {L : List ℂ} {f : ℂ → List ℂ} (hL : ConjClosed L)
    (hf : ∀ x z, z ∈ f x → (starRingEnd ℂ) z ∈ f ((starRingEnd ℂ) x)) :
    ConjClosed (L.flatMap f) := by
  intro z hz
  rw [List.mem_flatMap] at hz ⊢
  obtain ⟨x, hx, hzx⟩ := hz
  exact ⟨(starRingEnd ℂ) x, hL x hx, hf x z hzx⟩

theorem conjClosed_pair (p : ℂ) : ConjClosed [p, (starRingEnd ℂ) p] := by
  intro z hz
  simp only [List.mem_cons, List.not_mem_nil, or_false] at hz ⊢
  rcases hz with hz | hz <;> rw [hz]
  · exact Or.inr rfl
  · exact Or.inl (Complex.conj_conj p)

theorem conjClosed_real_single {p : ℂ} (hp : p.im = 0) : ConjClosed [p] := by
  intro z hz
  simp only [List.mem_singleton] at hz ⊢
  rw [hz, Complex.conj_eq_iff_im.mpr hp]

theorem conjClosed_nil : ConjClosed [] := fun z hz => absurd hz (List.not_mem_nil z)

theorem conjClosed_flatPoles_design (n : ℕ) (sBd : ℝ) :
    ConjClosed (flatPoles (AnalogLowPass.design n sBd)) := by
  apply conjClosed_entry_flatMap
  intro e he
  unfold AnalogLowPass.design at he
  rw [List.mem_append] at he
  rcases he with he | he
  · rw [List.mem_map] at he
    obtain ⟨j, -, rfl⟩ := he
    exact conjClosed_pair _
  · by_cases hodd : n % 2 = 1
    · rw [if_pos hodd, List.mem_singleton] at he
      rw [he]
      exact conjClosed_real_single (middle_pole_real hodd)
    · rw [if_neg hodd] at he
      exact absurd he (List.not_mem_nil e)

theorem conjClosed_flatPoles_shelf (n : ℕ) (g sBd : ℝ) :
    ConjClosed (flatPoles (AnalogLowShelf.design n g sBd)) := by
  rw [shelf_flatPoles]
  exact conjClosed_flatPoles_design n sBd

theorem real_mul_real_im {c : ℝ} {p : ℂ} (hp : p.im = 0) : ((c : ℂ) * p).im = 0 := by
  simp [Complex.mul_im, Complex.ofReal_re, Complex.ofReal_im, hp]

theorem conjClosed_flatZeros_design (n : ℕ) (sBd : ℝ) :
    ConjClosed (flatZeros (AnalogLowPass.design n sBd)) := by
  apply conjClosed_entry_flatMap
  intro e he
  unfold AnalogLowPass.design at he
  rw [List.mem_append] at he
  rcases he with he | he
  · rw [List.mem_map] at he
    obtain ⟨j, -, rfl⟩ := he
    exact conjClosed_pair _
  · by_cases hodd : n % 2 = 1
    · rw [if_pos hodd, List.mem_singleton] at he
      rw [he]
      exact conjClosed_nil
    · rw [if_neg hodd] at he
      exact absurd he (List.not_mem_nil e)

theorem conjClosed_flatZeros_shelf (n : ℕ) (g sBd : ℝ) :
    ConjClosed (flatZeros (AnalogLowShelf.design n g sBd)) := by
  apply conjClosed_entry_flatMap
  intro e he
  unfold AnalogLowShelf.design at he
  rw [List.mem_append] at he
  rcases he with he | he
  · rw [List.mem_map] at he
    obtain ⟨j, -, rfl⟩ := he
    exact conjClosed_pair _
  · by_cases hodd : n % 2 = 1
    · rw [if_pos hodd, List.mem_singleton] at he
      rw [he]
      exact conjClosed_real_single (real_mul_real_im (middle_pole_real hodd))
    · rw [if_neg hodd] at he
      exact absurd he (List.not_mem_nil e)

theorem conjClosed_proto_poles (k : ResponseKind) (n : ℕ) (P : Params) :
    ConjClosed (flatPoles (protoEntries k n P)) := by
  unfold protoEntries
  by_cases hk : isShelfKind k = true
  · rw [if_pos hk]
    exact conjClosed_flatPoles_shelf n P.gainDb P.stopBandDb
  · rw [if_neg hk]
    exact conjClosed_flatPoles_design n P.stopBandDb

theorem conjClosed_proto_zeros (k : ResponseKind) (n : ℕ) (P : Params) :
    ConjClosed (flatZeros (protoEntries k n P)) := by
  unfold protoEntries
  by_cases hk : isShelfKind k = true
  · rw [if_pos hk]
    exact conjClosed_flatZeros_shelf n P.gainDb P.stopBandDb
  · rw [if_neg hk]
    exact conjClosed_flatZeros_design n P.stopBandDb

theorem blt_conj (a : ℝ) (s : ℂ) :
    blt a ((starRingEnd ℂ) s) = (starRingEnd ℂ) (blt a s) := by
  unfold blt
  rw [map_div₀, map_add, map_sub, Complex.conj_ofReal]

theorem sq_eq_sq_cases {x y : ℂ} (h : x ^ 2 = y ^ 2) : x = y ∨ x = -y := by
  have h0 : (x - y) * (x + y) = 0 := by linear_combination h
  rcases mul_eq_zero.mp h0 with h1 | h1
  · exact Or.inl (sub_eq_zero.mp h1)
  · exact Or.inr (eq_neg_of_add_eq_zero_left h1)

theorem quadRoots_conj {b c : ℂ} (hc : (starRingEnd ℂ) c = c) {s : ℂ}
    (hs : s ∈ quadRoots b c) :
    (starRingEnd ℂ) s ∈ quadRoots ((starRingEnd ℂ) b) c := by
  have hw : (starRingEnd ℂ) (b ^ 2 - 4 * c) = (starRingEnd ℂ) b ^ 2 - 4 * c := by
    rw [map_sub, map_pow, map_mul, hc, map_ofNat]
  have hsq : ((starRingEnd ℂ) (csqrt (b ^ 2 - 4 * c))) ^ 2
      = csqrt ((starRingEnd ℂ) b ^ 2 - 4 * c) ^ 2 := by
    rw [csqrt_sq, ← map_pow, csqrt_sq, hw]
  have h2 : (starRingEnd ℂ) (2 : ℂ) = 2 := map_ofNat _ 2
  simp only [quadRoots, List.mem_cons, List.not_mem_nil, or_false] at hs ⊢
  rcases sq_eq_sq_cases hsq with hpm | hpm
  · rcases hs with hs | hs <;> rw [hs]
    · left
      rw [map_div₀, map_add, h2, hpm]
    · right
      rw [map_div₀, map_sub, h2, hpm]
  · rcases hs with hs | hs <;> rw [hs]
    · right
      rw [map_div₀, map_add, h2, hpm]
      ring
    · left
      rw [map_div₀, map_sub, h2, hpm]
      ring

theorem poleMapList_conj (k : ResponseKind) (P : Params) :
    ∀ s z, z ∈ poleMapList k P s →
      (starRingEnd ℂ) z ∈ poleMapList k P ((starRingEnd ℂ) s) := by
  have hC : (starRingEnd ℂ) ((bandW0 P : ℂ) ^ 2) = (bandW0 P : ℂ) ^ 2 := by
    rw [map_pow, Complex.conj_ofReal]
  intro s z hz
  cases k with
  | lowPass =>
      rw [poleMapList, List.mem_singleton] at hz ⊢
      rw [hz, ← blt_conj, map_mul, Complex.conj_ofReal]
  | lowShelf =>
      rw [poleMapList, List.mem_singleton] at hz ⊢
      rw [hz, ← blt_conj, map_mul, Complex.conj_ofReal]
  | highPass =>
      rw [poleMapList, List.mem_singleton] at hz ⊢
      rw [hz, ← blt_conj, map_div₀, Complex.conj_ofReal]
  | highShelf =>
      rw [poleMapList, List.mem_singleton] at hz ⊢
      rw [hz, ← blt_conj, map_div₀, Complex.conj_ofReal]
  | bandPass =>
      rw [poleMapList, List.mem_map] at hz ⊢
      obtain ⟨r, hr, rfl⟩ := hz
      refine ⟨(starRingEnd ℂ) r, ?_, blt_conj _ r⟩
      have := quadRoots_conj hC hr
      rwa [map_mul, Complex.conj_ofReal] at this
  | bandShelf =>
      rw [poleMapList, List.mem_map] at hz ⊢
      obtain ⟨r, hr, rfl⟩ := hz
      refine ⟨(starRingEnd ℂ) r, ?_, blt_conj _ r⟩
      have := quadRoots_conj hC hr
      rwa [map_mul, Complex.conj_ofReal] at this
  | bandStop =>
      rw [poleMapList, List.mem_map] at hz ⊢
      obtain ⟨r, hr, rfl⟩ := hz
      refine ⟨(starRingEnd ℂ) r, ?_, blt_conj _ r⟩
      have := quadRoots_conj hC hr
      rwa [map_div₀, Complex.conj_ofReal] at this

theorem conjClosed_infZeroImage (k : ResponseKind) (P : Params) :
    ConjClosed (infZeroImage k P) := by
  cases k with
  | lowPass =>
      intro z hz
      simp only [infZeroImage, List.mem_singleton] at hz ⊢
      rw [hz]
      simp
  | lowShelf =>
      intro z hz
      simp only [infZeroImage, List.mem_singleton] at hz ⊢
      rw [hz]
      simp
  | highPass =>
      intro z hz
      simp only [infZeroImage, List.mem_singleton] at hz ⊢
      rw [hz]
      simp
  | highShelf =>
      intro z hz
      simp only [infZeroImage, List.mem_singleton] at hz ⊢
      rw [hz]
      simp
  | bandPass =>
      intro z hz
      simp only [infZeroImage, List.mem_cons, List.not_mem_nil, or_false] at hz ⊢
      rcases hz with hz | hz <;> rw [hz] <;> simp
  | bandShelf =>
      intro z hz
      simp only [infZeroImage, List.mem_cons, List.not_mem_nil, or_false] at hz ⊢
      rcases hz with hz | hz <;> rw [hz] <;> simp
  | bandStop =>
      intro z hz
      simp only [infZeroImage, List.mem_cons, List.not_mem_nil, or_false] at hz ⊢
      rcases hz with hz | hz <;> rw [hz, ← blt_conj]
      · right
        rw [map_mul, Complex.conj_I, Complex.conj_ofReal, neg_mul]
      · left
        rw [map_neg, map_mul, Complex.conj_I, Complex.conj_ofReal, neg_mul, neg_neg]

theorem conjClosed_infPart (k : ResponseKind) (P : Params) (cnt : ℕ) :
    ConjClosed ((List.range cnt).flatMap fun _ => infZeroImage k P) := by
  intro z hz
  rw [List.mem_flatMap] at hz ⊢
  obtain ⟨i, hi, hzi⟩ := hz
  exact ⟨i, hi, conjClosed_infZeroImage k P z hzi⟩

/-- C7: in every digital layout produced by `setup`, each pole and each zero
(in particular each one off the real axis) appears together with its complex
conjugate, so the layout describes a real-coefficient filter. -/
theorem digital_layout_conjugate_symmetry (k : ResponseKind) (n : ℕ) (P : Params) :
    (∀ z ∈ digitalPoles k n P, (starRingEnd ℂ) z ∈ digitalPoles k n P) ∧
      ∀ z ∈ digitalZeros k n P, (starRingEnd ℂ) z ∈ digitalZeros k n P := by
  constructor
  · exact conjClosed_map_pipeline (conjClosed_proto_poles k n P) (poleMapList_conj k P)
  · unfold digitalZeros
    exact conjClosed_append
      (conjClosed_map_pipeline (conjClosed_proto_zeros k n P) (poleMapList_conj k P))
      (conjClosed_infPart k P _)

/-! Shelf flatness at zero gain. -/

theorem shelfScale_zero (n : ℕ) : shelfScale n 0 = 1 := by
  unfold shelfScale
  rw [zero_div, Real.rpow_zero, Real.one_rpow]

theorem shelf_zeros_eq_poles_zero_gain (n : ℕ) (sBd : ℝ) :
    flatZeros (AnalogLowShelf.design n 0 sBd)
      = flatPoles (AnalogLowShelf.design n 0 sBd) := by
  unfold flatZeros flatPoles AnalogLowShelf.design
  rw [List.flatMap_append, List.flatMap_append, List.flatMap_map, List.flatMap_map]
  have hs : ((shelfScale n 0 : ℝ) : ℂ) = 1 := by
    rw [shelfScale_zero]
    exact Complex.ofReal_one
  by_cases hodd : n % 2 = 1 <;> simp [hodd, entryZeros, entryPoles, hs]

theorem shelf_infZeroCount (n : ℕ) (g sBd : ℝ) :
    infZeroCount (AnalogLowShelf.design n g sBd) = 0 := by
  unfold infZeroCount AnalogLowShelf.design
  rw [List.map_append, List.sum_append, List.map_map]
  by_cases hodd : n % 2 = 1 <;> simp [hodd, entryInfCount, Function.comp_def]

theorem responseMag_self {poles : List ℂ} {z : ℂ} (hz : ∀ p ∈ poles, z ≠ p) :
    responseMag poles poles z = 1 := by
  unfold responseMag
  apply div_self
  apply List.prod_ne_zero
  intro h0
  rw [List.mem_map] at h0
  obtain ⟨w, hw, habs⟩ := h0
  exact hz w hw (sub_eq_zero.mp (Complex.abs.eq_zero.mp habs))

/-- C9: every shelf filter (`LowShelf`, `HighShelf`, `BandShelf`) set up with
`gainDb = 0` degenerates in the analog prototype to all poles = all zeros, its
digital layout has identical pole and zero lists, and the resulting magnitude
response is exactly flat at 0 dB across the full spectrum (in particular
within ±0.01 dB). -/
theorem shelf_zero_gain_flat (k : ResponseKind) (n : ℕ) (P : Params)
    (hshelf : isShelfKind k = true) (hg : P.gainDb = 0) :
    flatZeros (AnalogLowShelf.design n P.gainDb P.stopBandDb)
        = flatPoles (AnalogLowShelf.design n P.gainDb P.stopBandDb) ∧
      digitalZeros k n P = digitalPoles k n P ∧
      ∀ z : ℂ, z ∉ digitalPoles k n P →
        responseMag (digitalPoles k n P) (digitalZeros k n P) z = 1 ∧
          |20 * Real.logb 10
              (responseMag (digitalPoles k n P) (digitalZeros k n P) z)| ≤ 0.01 := by
  have hproto : protoEntries k n P = AnalogLowShelf.design n 0 P.stopBandDb := by
    unfold protoEntries
    rw [if_pos hshelf, hg]
  have hzp : digitalZeros k n P = digitalPoles k n P := by
    unfold digitalZeros digitalPoles
    rw [hproto, shelf_infZeroCount, shelf_zeros_eq_poles_zero_gain]
    simp
  rw [hg]
  refine ⟨shelf_zeros_eq_poles_zero_gain n P.stopBandDb, hzp, fun z hz => ?_⟩
  have hne : ∀ p ∈ digitalPoles k n P, z ≠ p := fun p hp he => hz (he ▸ hp)
  rw [hzp]
  have h1 := responseMag_self hne
  exact ⟨h1, by rw [h1, Real.logb_one, mul_zero, abs_zero]; norm_num⟩

/-- Witness for C9: `LowShelf` of order 2 with `gainDb = 0`. -/
theorem shelf_zero_gain_flat_witness :
    (isShelfKind ResponseKind.lowShelf = true ∧
        (⟨48000, 1000, 200, 0, 20⟩ : Params).gainDb = 0) ∧
      digitalZeros ResponseKind.lowShelf 2 ⟨48000, 1000, 200, 0, 20⟩
        = digitalPoles ResponseKind.lowShelf 2 ⟨48000, 1000, 200, 0, 20⟩ :=
  ⟨⟨rfl, rfl⟩, (shelf_zero_gain_flat ResponseKind.lowShelf 2 _ rfl rfl).2.1⟩

end IirChebII
